import Mathlib

/-!
Verification of the core data-normalization, filtering and store logic of the
attendance-tracker repository.

The TypeScript sources are shallowly embedded: JavaScript strings are Lean
`String`s (with most work done on their `List Char` data), JavaScript numbers
arising from `parseInt` of digit runs are `Nat`, fallible results
(`number | null`, `T | undefined`) are `Option`, and the Convex document store
is a list of attendee records transformed by explicit state-passing functions.
-/

/-- The ASCII whitespace class used by JavaScript `trim` and the regex `\s`
(space, tab, line feed, vertical tab, form feed, carriage return). -/
def jsSpace (c : Char) : Bool :=
  c.toNat == 32 || (9 ≤ c.toNat && c.toNat ≤ 13)

/-- JavaScript `String.prototype.trim`: drop `jsSpace` characters from both
ends of a character list. -/
def trimL (l : List Char) : List Char :=
  ((l.dropWhile jsSpace).reverse.dropWhile jsSpace).reverse

/-- Lower-case a character list (JavaScript `toLowerCase`, ASCII letters). -/
def lowerL (l : List Char) : List Char :=
  l.map Char.toLower

/-- Upper-case a character list (JavaScript `toUpperCase`, ASCII letters). -/
def upperL (l : List Char) : List Char :=
  l.map Char.toUpper

/-- Does `needle` occur as a leading segment of `hay`? (Helper for
JavaScript `String.prototype.includes`.) -/
def leadMatch : List Char → List Char → Bool
  | _, [] => true
  | [], _ :: _ => false
  | h :: hs, n :: ns => h == n && leadMatch hs ns

/-- JavaScript `String.prototype.includes`: does `needle` occur as a
contiguous segment of `hay`? -/
def hasSub (hay needle : List Char) : Bool :=
  match hay with
  | [] => needle.isEmpty
  | _ :: t => leadMatch hay needle || hasSub t needle

/-- String-level wrapper for `hasSub`. -/
def strIncludes (hay needle : String) : Bool :=
  hasSub hay.data needle.data

/-- JavaScript `String.prototype.split` with a single-character separator. -/
def splitOnChar (sep : Char) : List Char → List (List Char)
  | [] => [[]]
  | c :: t =>
    let r := splitOnChar sep t
    if c == sep then [] :: r
    else
      match r with
      | [] => [[c]]
      | h :: rt => (c :: h) :: rt

/-- Join a list of fields with a single-character separator (JavaScript
`Array.prototype.join`). -/
def joinSep (sep : Char) : List (List Char) → List Char
  | [] => []
  | [x] => x
  | x :: xs => x ++ sep :: joinSep sep xs

/-- The first maximal run of decimal digits of a character list: the embedding
of `str.match(/\d+/g)?.[0]`. -/
def firstDigitRun : List Char → Option (List Char)
  | [] => none
  | c :: t =>
    if c.isDigit then some (c :: t.takeWhile Char.isDigit)
    else firstDigitRun t

/-- Decimal value of a digit run (the embedding of `parseInt(run, 10)`). -/
def digitsVal (l : List Char) : Nat :=
  l.foldl (fun acc c => 10 * acc + (c.toNat - 48)) 0

/-- `normalizeBatchYear` from the source: extract the first digit run of a
free-text batch string, disambiguate two-digit values (0–30 ↦ 2000+v,
31–99 ↦ 1900+v), and reject years outside [1980, 2030]. -/
def normalizeBatchYear (batch : String) : Option Nat :=
  if batch = "" then none
  else
    match firstDigitRun batch.data with
    | none => none
    | some run =>
      let year := digitsVal run
      let year := if year ≤ 99 then (if year ≤ 30 then 2000 + year else 1900 + year) else year
      if year < 1980 ∨ 2030 < year then none else some year

/-- Streaming form of the regex replacement `\s+` ↦ `" "`: the flag records
whether we are inside a whitespace run already rewritten to a space. -/
def collapseGo : Bool → List Char → List Char
  | _, [] => []
  | inRun, c :: t =>
    if jsSpace c then
      if inRun then collapseGo true t
      else ' ' :: collapseGo true t
    else c :: collapseGo false t

/-- JavaScript `replace(/\s+/g, " ")`: collapse each maximal whitespace run
to a single space. -/
def collapseWs (l : List Char) : List Char :=
  collapseGo false l

/-- The transformation branch of `normalizeCourse` from the source:
`course.trim().toUpperCase().replace(/\s+/g, " ")`. -/
def courseTransform (course : String) : String :=
  String.mk (collapseWs (upperL (trimL course.data)))

/-- `normalizeCourse` from the source: empty input maps to the sentinel
`"UNKNOWN"`; otherwise trim, upper-case and collapse whitespace runs. -/
def normalizeCourse (course : String) : String :=
  if course = "" then "UNKNOWN" else courseTransform course

/-- An attendee record, the single persisted entity of the Convex `attendees`
table (`_id` is modelled as a `Nat`; `checkedInAt` is a millisecond timestamp). -/
structure Attendee where
  id : Nat := 0
  fullName : String
  course : String
  batch : String
  shift : Option String := none
  contactNo : Option String := none
  isPresent : Bool := false
  checkedInAt : Option Nat := none
deriving DecidableEq

/-- The `globalFilterFn` of the editable roster (`AttendanceTable.tsx`):
case-insensitive substring match of the search string against `fullName` and
`contactNo` (a missing `contactNo` is replaced by the empty string). -/
def rosterSearchMatch (filterValue : String) (a : Attendee) : Bool :=
  let search := lowerL filterValue.data
  hasSub (lowerL a.fullName.data) search || hasSub (lowerL (a.contactNo.getD "").data) search

/-- The `globalFilterFn` of the print view (`PrintList` component), written
with the same body as the roster's. -/
def printSearchMatch (filterValue : String) (a : Attendee) : Bool :=
  let search := lowerL filterValue.data
  hasSub (lowerL a.fullName.data) search || hasSub (lowerL (a.contactNo.getD "").data) search

/-- The `matchesSearch` part of `filteredAttendees` in the admin console
(`CSVImport.tsx`): the search string is matched case-insensitively against
`fullName`, `course`, `shift`, `batch` and `contactNo` (optional fields that
are absent contribute `false`). -/
def adminSearchMatch (searchTerm : String) (a : Attendee) : Bool :=
  let search := lowerL searchTerm.data
  hasSub (lowerL a.fullName.data) search ||
    hasSub (lowerL a.course.data) search ||
    (match a.shift with
     | some s => hasSub (lowerL s.data) search
     | none => false) ||
    hasSub (lowerL a.batch.data) search ||
    (match a.contactNo with
     | some s => hasSub (lowerL s.data) search
     | none => false)

/-- One row of a bulk import as accepted by the `bulkImport` mutation
(`convex/attendees.ts`): presence is optional. -/
structure ImportRow where
  fullName : String
  course : String
  batch : String
  shift : Option String := none
  contactNo : Option String := none
  isPresent : Option Bool := none
deriving DecidableEq

/-- The store mutations of `convex/attendees.ts`. Timestamps (`Date.now()`)
and freshly assigned document ids are passed in explicitly. -/
inductive StoreMutation where
  | markAttendance (id : Nat) (isPresent : Bool) (now : Nat)
  | markBulkAttendance (ids : List Nat) (isPresent : Bool) (now : Nat)
  | addAttendee (fullName course batch : String) (shift contactNo : Option String) (newId : Nat)
  | bulkImport (rows : List ImportRow) (now : Nat) (firstId : Nat)
  | deleteAttendee (id : Nat)
  | clearAll
  | resetAttendance

/-- `ctx.db.patch(id, { isPresent, checkedInAt: isPresent ? Date.now() : undefined })`
applied to the record with the given id. -/
def patchPresence (id : Nat) (p : Bool) (now : Nat) (s : List Attendee) : List Attendee :=
  s.map fun a =>
    if a.id = id then { a with isPresent := p, checkedInAt := if p then some now else none }
    else a

/-- The records inserted by `bulkImport`: presence defaults to `false`, and
`checkedInAt` is set to `now` exactly when the row carries `isPresent: true`. -/
def importedRecords : List ImportRow → Nat → Nat → List Attendee
  | [], _, _ => []
  | r :: rest, now, nextId =>
    { id := nextId, fullName := r.fullName, course := r.course, batch := r.batch,
      shift := r.shift, contactNo := r.contactNo,
      isPresent := r.isPresent.getD false,
      checkedInAt := if r.isPresent.getD false then some now else none } ::
      importedRecords rest now (nextId + 1)

/-- Apply one store mutation to the full collection, mirroring the handlers in
`convex/attendees.ts`. -/
def applyMutation : StoreMutation → List Attendee → List Attendee
  | .markAttendance id p now, s => patchPresence id p now s
  | .markBulkAttendance ids p now, s => ids.foldl (fun acc i => patchPresence i p now acc) s
  | .addAttendee fn co ba sh cn newId, s =>
    s ++ [{ id := newId, fullName := fn, course := co, batch := ba, shift := sh,
            contactNo := cn, isPresent := false, checkedInAt := none }]
  | .bulkImport rows now firstId, s => s ++ importedRecords rows now firstId
  | .deleteAttendee id, s => s.filter fun a => a.id != id
  | .clearAll, _ => []
  | .resetAttendance, s => s.map fun a => { a with isPresent := false, checkedInAt := none }

/-- The data-model invariant of §3: `checkedInAt` is present iff `isPresent`. -/
def storeInv (s : List Attendee) : Prop :=
  ∀ a ∈ s, a.checkedInAt.isSome = a.isPresent

/-- The batch sort key of `sortedDataForExport` (case "batch"):
`normalizeBatchYear(batch) ?? 9999`. -/
def batchSortKey (a : Attendee) : Nat :=
  (normalizeBatchYear a.batch).getD 9999

/-- Stable insertion into a key-sorted list: an element is placed before the
first strictly-later position allowed by its key, keeping the original order
of equal keys (the behaviour of the stable `Array.prototype.sort` with the
numeric comparator of `sortedDataForExport`). -/
def orderedInsertBy (key : Attendee → Nat) (x : Attendee) : List Attendee → List Attendee
  | [] => [x]
  | y :: t => if key x ≤ key y then x :: y :: t else y :: orderedInsertBy key x t

/-- `sortedDataForExport` with sort column "batch" and ascending order:
a stable sort of the collection by `batchSortKey`. -/
def sortByBatchAsc (l : List Attendee) : List Attendee :=
  l.foldr (orderedInsertBy batchSortKey) []

/-- The result shape of the `getStats` query. -/
structure Stats where
  total : Nat
  present : Nat
  absent : Nat
  percentage : Nat
deriving DecidableEq

/-- `getStats` from `convex/attendees.ts`: `Math.round((present/total)*100)`
is embedded as rounding of the exact rational, and `0` when the collection is
empty. -/
def getStats (s : List Attendee) : Stats :=
  let present := (s.filter fun a => a.isPresent).length
  { total := s.length
    present := present
    absent := s.length - present
    percentage :=
      if 0 < s.length then (round ((present : ℚ) / (s.length : ℚ) * 100)).toNat else 0 }

/-- String-level JavaScript `trim`. -/
def jsTrim (s : String) : String :=
  String.mk (trimL s.data)

/-- String-level JavaScript `toLowerCase`. -/
def jsToLower (s : String) : String :=
  String.mk (lowerL s.data)

/-- String-level JavaScript `split` with a one-character separator. -/
def jsSplit (sep : Char) (s : String) : List String :=
  (splitOnChar sep s.data).map String.mk

/-- `headers.findIndex((h) => h.includes("name"))` of `parseCSV`. -/
def nameIdxOf (headers : List String) : Option Nat :=
  headers.findIdx? fun h => strIncludes h "name"

/-- `headers.findIndex((h) => h.includes("course") || h.includes("program"))`. -/
def courseIdxOf (headers : List String) : Option Nat :=
  headers.findIdx? fun h => strIncludes h "course" || strIncludes h "program"

/-- `headers.findIndex((h) => h.includes("batch") || h.includes("year"))`. -/
def batchIdxOf (headers : List String) : Option Nat :=
  headers.findIdx? fun h => strIncludes h "batch" || strIncludes h "year"

/-- `headers.findIndex((h) => h.includes("shift"))`. -/
def shiftIdxOf (headers : List String) : Option Nat :=
  headers.findIdx? fun h => strIncludes h "shift"

/-- `headers.findIndex((h) => h.includes("contact") || h.includes("phone") || h.includes("mobile"))`. -/
def contactIdxOf (headers : List String) : Option Nat :=
  headers.findIdx? fun h => strIncludes h "contact" || strIncludes h "phone" || strIncludes h "mobile"

/-- `lines[0].split(",").map((h) => h.trim().toLowerCase())` of `parseCSV`. -/
def csvHeaders (text : String) : List String :=
  (jsSplit ',' ((jsSplit '\n' (jsTrim text)).headD "")).map fun h => jsToLower (jsTrim h)

/-- The data-row loop of `parseCSV`: each line is split on commas and the
cells trimmed; a row whose name cell is empty (or missing) is skipped; course
and batch default to the empty string; shift and contact are taken only when
their column was detected, and are missing when the row is too short. -/
def parseRows (nIdx cIdx bIdx : Nat) (shiftIdx contactIdx : Option Nat) :
    List String → List ImportRow
  | [] => []
  | line :: rest =>
    let cols := (jsSplit ',' line).map jsTrim
    if cols.getD nIdx "" ≠ "" then
      { fullName := cols.getD nIdx "", course := cols.getD cIdx "", batch := cols.getD bIdx "",
        shift := shiftIdx.bind fun i => cols.get? i,
        contactNo := contactIdx.bind fun i => cols.get? i,
        isPresent := none } :: parseRows nIdx cIdx bIdx shiftIdx contactIdx rest
    else parseRows nIdx cIdx bIdx shiftIdx contactIdx rest

/-- `parseCSV` from the source (split-based variant): trim the text, split
into lines, resolve column roles by fuzzy header matching, fail with a
descriptive error when a required role is unresolved (the `alert` plus empty
result), and otherwise parse the data rows. -/
def parseCSV (text : String) : Except String (List ImportRow) :=
  if (jsSplit '\n' (jsTrim text)).length < 2 then .ok []
  else
    match nameIdxOf (csvHeaders text), courseIdxOf (csvHeaders text),
        batchIdxOf (csvHeaders text) with
    | some nIdx, some cIdx, some bIdx =>
      .ok (parseRows nIdx cIdx bIdx (shiftIdxOf (csvHeaders text))
        (contactIdxOf (csvHeaders text)) ((jsSplit '\n' (jsTrim text)).tail))
    | _, _, _ => .error "CSV must have 'name', 'course', and 'batch' columns"

/-- The fixed export header cells of `exportCSV`. -/
def exportHeaderCells : List String :=
  ["Full Name", "Course", "Shift", "Batch", "Contact No.", "Present", "Checked In At"]

/-- One export row of `exportCSV`; `Array.prototype.join` renders the missing
optional fields as empty strings, presence as "Yes"/"No", and the check-in
time through the supplied `toLocaleString` rendering. -/
def exportRowCells (fmtTime : Nat → String) (a : Attendee) : List String :=
  [a.fullName, a.course, a.shift.getD "", a.batch, a.contactNo.getD "",
   if a.isPresent then "Yes" else "No",
   match a.checkedInAt with
   | some t => fmtTime t
   | none => ""]

/-- The text emitted by `exportCSV`: the joined header row followed by one
joined row per record, all joined with newlines. -/
def exportCSVText (fmtTime : Nat → String) (attendees : List Attendee) : String :=
  String.mk (joinSep '\n'
    (joinSep ',' (exportHeaderCells.map String.data) ::
      attendees.map fun a => joinSep ',' ((exportRowCells fmtTime a).map String.data)))

/-- A CSV-clean field: free of commas and newlines, with no leading or
trailing whitespace (so splitting and per-cell trimming give it back). -/
def cleanCell (s : String) : Bool :=
  (s.data.all fun c => !(c == ',') && !(c == '\n')) &&
    (match s.data.head? with
     | some c => !jsSpace c
     | none => true) &&
    (match s.data.getLast? with
     | some c => !jsSpace c
     | none => true)

/-- A benign timestamp rendering: no newline (commas are allowed — the
timestamp is the last column, so extra commas only add trailing cells) and no
leading or trailing whitespace. -/
def timeCell (s : String) : Bool :=
  (s.data.all fun c => !(c == '\n')) &&
    (match s.data.head? with
     | some c => !jsSpace c
     | none => true) &&
    (match s.data.getLast? with
     | some c => !jsSpace c
     | none => true)

/-- An attendee whose exported fields survive the CSV round-trip: every text
field is comma/newline-free with no edge whitespace, the name is non-empty,
and the optional fields are present. -/
def cleanAttendee (a : Attendee) : Prop :=
  cleanCell a.fullName = true ∧ a.fullName ≠ "" ∧ cleanCell a.course = true ∧
    cleanCell a.batch = true ∧
    (∃ s, a.shift = some s ∧ cleanCell s = true) ∧
    (∃ s, a.contactNo = some s ∧ cleanCell s = true)

theorem firstDigitRun_eq_none_of_no_digit {l : List Char}
    (h : ∀ c ∈ l, ¬ c.isDigit) : firstDigitRun l = none := by
  induction l with
  | nil => rfl
  | cons c t ih =>
    have hc : ¬ c.isDigit = true := h c (List.mem_cons_self c t)
    simp only [firstDigitRun, hc, if_false]
    exact ih fun x hx => h x (List.mem_cons_of_mem c hx)

theorem firstDigitRun_all_digits {l run : List Char}
    (h : firstDigitRun l = some run) : ∀ c ∈ run, c.isDigit := by
  induction l with
  | nil => simp [firstDigitRun] at h
  | cons c t ih =>
    by_cases hc : c.isDigit
    · simp only [firstDigitRun, hc, if_true, Option.some.injEq] at h
      subst h
      intro x hx
      rcases List.mem_cons.mp hx with hx | hx
      · subst hx; exact hc
      · exact List.mem_takeWhile_imp hx
    · simp only [firstDigitRun, hc, if_false] at h
      exact ih h

theorem digitsVal_aux_lt (l : List Char) (h : ∀ c ∈ l, c.isDigit) (acc : Nat) :
    l.foldl (fun acc c => 10 * acc + (c.toNat - 48)) acc < (acc + 1) * 10 ^ l.length := by
  induction l generalizing acc with
  | nil => simp
  | cons c t ih =>
    have hc : c.isDigit := h c (List.mem_cons_self c t)
    have hd : c.toNat - 48 ≤ 9 := by
      simp [Char.isDigit] at hc
      obtain ⟨h1, h2⟩ := hc
      have b1 : ('0' : Char).toNat ≤ c.toNat := h1
      have b2 : c.toNat ≤ ('9' : Char).toNat := h2
      have a1 : ('0' : Char).toNat = 48 := by decide
      have a2 : ('9' : Char).toNat = 57 := by decide
      omega
    have ht := ih (fun x hx => h x (List.mem_cons_of_mem c hx)) (10 * acc + (c.toNat - 48))
    calc List.foldl (fun acc c => 10 * acc + (c.toNat - 48)) (10 * acc + (c.toNat - 48)) t
        < (10 * acc + (c.toNat - 48) + 1) * 10 ^ t.length := ht
      _ ≤ (acc + 1) * 10 ^ (c :: t).length := by
        simp only [List.length_cons, pow_succ]
        nlinarith [Nat.pos_pow_of_pos t.length (by norm_num : 0 < 10)]

theorem digitsVal_lt {l : List Char} (h : ∀ c ∈ l, c.isDigit) :
    digitsVal l < 10 ^ l.length :=
  by simpa using digitsVal_aux_lt l h 0

/-- C1: batch-year normalization extracts the first maximal digit run; with no
digits the result is "no year"; a 1–2 digit value v is disambiguated to
2000+v (v ≤ 30) or 1900+v (31 ≤ v ≤ 99) and then checked against the
acceptance window [1980, 2030]; a directly-extracted year (value ≥ 100, which
covers every already-4-digit year) is checked against the same window, with
out-of-window years yielding "no year" rather than a clamped value. -/
theorem normalizeBatchYear_spec (batch : String) :
    ((∀ c ∈ batch.data, ¬ c.isDigit) → normalizeBatchYear batch = none) ∧
    (∀ run, firstDigitRun batch.data = some run → run.length ≤ 2 →
      normalizeBatchYear batch =
        (if 1980 ≤ (if digitsVal run ≤ 30 then 2000 + digitsVal run else 1900 + digitsVal run) ∧
            (if digitsVal run ≤ 30 then 2000 + digitsVal run else 1900 + digitsVal run) ≤ 2030
         then some (if digitsVal run ≤ 30 then 2000 + digitsVal run else 1900 + digitsVal run)
         else none)) ∧
    (∀ run, firstDigitRun batch.data = some run → 100 ≤ digitsVal run →
      normalizeBatchYear batch =
        (if 1980 ≤ digitsVal run ∧ digitsVal run ≤ 2030 then some (digitsVal run) else none)) := by
  refine ⟨fun h => ?_, fun run hrun hlen => ?_, fun run hrun hval => ?_⟩
  · unfold normalizeBatchYear
    rw [firstDigitRun_eq_none_of_no_digit h]
    simp
  · have hne : batch ≠ "" := by
      intro he
      subst he
      simp [show ("" : String).data = [] from rfl, firstDigitRun] at hrun
    have hv : digitsVal run < 100 := by
      have h1 := digitsVal_lt (firstDigitRun_all_digits hrun)
      have h2 : (10 : Nat) ^ run.length ≤ 10 ^ 2 := Nat.pow_le_pow_right (by norm_num) hlen
      omega
    unfold normalizeBatchYear
    rw [if_neg hne, hrun]
    simp only [Nat.le_of_lt_succ]
    have h99 : digitsVal run ≤ 99 := by omega
    by_cases h30 : digitsVal run ≤ 30
    · simp only [h99, if_true, h30]
      have : ¬ (2000 + digitsVal run < 1980 ∨ 2030 < 2000 + digitsVal run) := by omega
      simp only [if_pos, this, if_false]
      have h1 : 1980 ≤ 2000 + digitsVal run ∧ 2000 + digitsVal run ≤ 2030 := by omega
      simp [h1]
    · simp only [h99, if_true, h30, if_false]
      by_cases hr : 1900 + digitsVal run < 1980 ∨ 2030 < 1900 + digitsVal run
      · rw [if_pos hr]
        have : ¬ (1980 ≤ 1900 + digitsVal run ∧ 1900 + digitsVal run ≤ 2030) := by omega
        simp [this]
      · rw [if_neg hr]
        have : 1980 ≤ 1900 + digitsVal run ∧ 1900 + digitsVal run ≤ 2030 := by omega
        simp [this]
  · have hne : batch ≠ "" := by
      intro he
      subst he
      simp [show ("" : String).data = [] from rfl, firstDigitRun] at hrun
    unfold normalizeBatchYear
    rw [if_neg hne, hrun]
    have h99 : ¬ digitsVal run ≤ 99 := by omega
    simp only [h99, if_false]
    by_cases hr : digitsVal run < 1980 ∨ 2030 < digitsVal run
    · rw [if_pos hr]
      have : ¬ (1980 ≤ digitsVal run ∧ digitsVal run ≤ 2030) := by omega
      simp [this]
    · rw [if_neg hr]
      have : 1980 ≤ digitsVal run ∧ digitsVal run ≤ 2030 := by omega
      simp [this]

/-- Witness for C1 at concrete inputs: "Batch 16" has first digit run "16"
(length 2) and normalizes to 2016; "45" normalizes to none (1945 is outside
the window); "hello" has no digits and normalizes to none. -/
theorem normalizeBatchYear_spec_witness :
    firstDigitRun ("Batch 16" : String).data = some ['1', '6'] ∧
    (['1', '6'] : List Char).length ≤ 2 ∧
    normalizeBatchYear "Batch 16" = some 2016 ∧
    normalizeBatchYear "45" = none ∧
    normalizeBatchYear "hello" = none := by
  refine ⟨by decide, by decide, ?_, ?_, ?_⟩
  · have h := (normalizeBatchYear_spec "Batch 16").2.1 ['1', '6'] (by decide) (by decide)
    rw [h]
    decide
  · have h := (normalizeBatchYear_spec "45").2.1 ['4', '5'] (by decide) (by decide)
    rw [h]
    decide
  · exact (normalizeBatchYear_spec "hello").1 (by decide)

/-- `Char.toUpper` written as an explicit conditional on `toNat`. -/
theorem toUpper_def (c : Char) :
    Char.toUpper c = if 97 ≤ c.toNat ∧ c.toNat ≤ 122 then Char.ofNat (c.toNat - 32) else c :=
  rfl

theorem toNat_ofNat_of_lt {n : Nat} (h : n < 55296) : (Char.ofNat n).toNat = n := by
  have hv : n.isValidChar := Or.inl h
  rw [Char.ofNat, dif_pos hv]
  simp [Char.ofNatAux, Char.toNat, UInt32.toNat, BitVec.toNat_ofNatLt]

theorem toNat_toUpper (c : Char) :
    (Char.toUpper c).toNat = if 97 ≤ c.toNat ∧ c.toNat ≤ 122 then c.toNat - 32 else c.toNat := by
  rw [toUpper_def]
  by_cases h : 97 ≤ c.toNat ∧ c.toNat ≤ 122
  · rw [if_pos h, if_pos h, toNat_ofNat_of_lt (by omega)]
  · rw [if_neg h, if_neg h]

theorem jsSpace_iff (c : Char) :
    jsSpace c = true ↔ (c.toNat = 32 ∨ (9 ≤ c.toNat ∧ c.toNat ≤ 13)) := by
  simp [jsSpace]

theorem jsSpace_toUpper (c : Char) : jsSpace (Char.toUpper c) = jsSpace c := by
  have h := toNat_toUpper c
  by_cases hc : 97 ≤ c.toNat ∧ c.toNat ≤ 122
  · rw [if_pos hc] at h
    have h1 : jsSpace (Char.toUpper c) = false := by
      rw [← Bool.not_eq_true, jsSpace_iff]
      omega
    have h2 : jsSpace c = false := by
      rw [← Bool.not_eq_true, jsSpace_iff]
      omega
    rw [h1, h2]
  · rw [toUpper_def, if_neg hc]

theorem toUpper_toUpper (c : Char) : Char.toUpper (Char.toUpper c) = Char.toUpper c := by
  by_cases hc : 97 ≤ c.toNat ∧ c.toNat ≤ 122
  · have h : (Char.toUpper c).toNat = c.toNat - 32 := by rw [toNat_toUpper, if_pos hc]
    rw [toUpper_def (Char.toUpper c), if_neg (by omega)]
  · have h : Char.toUpper c = c := by rw [toUpper_def, if_neg hc]
    simp [h]

/-- `collapseWs` keeps a non-whitespace head character. -/
theorem collapseWs_cons_of_not_space {c : Char} (t : List Char) (h : jsSpace c = false) :
    collapseWs (c :: t) = c :: collapseWs t := by
  simp [collapseWs, collapseGo, h]

theorem collapseGo_true_eq (t : List Char) :
    collapseGo true t = collapseWs (t.dropWhile jsSpace) := by
  induction t with
  | nil => rfl
  | cons d t' ih =>
    cases hd : jsSpace d with
    | true => simpa [collapseGo, hd, List.dropWhile_cons] using ih
    | false => simp [collapseGo, collapseWs, hd, List.dropWhile_cons]

/-- `collapseWs` rewrites a maximal leading whitespace run to one space. -/
theorem collapseWs_cons_of_space {c : Char} (t : List Char) (h : jsSpace c = true) :
    collapseWs (c :: t) = ' ' :: collapseWs (t.dropWhile jsSpace) := by
  simp [collapseWs, collapseGo, h, collapseGo_true_eq]

theorem collapseGo_ne_nil {l : List Char} (b : Bool) (h : l ≠ []) (hb : b = false) :
    collapseGo b l ≠ [] := by
  cases l with
  | nil => exact absurd rfl h
  | cons c t =>
    subst hb
    cases hc : jsSpace c <;> simp [collapseGo, hc]

theorem collapseGo_idem (l : List Char) :
    collapseGo true (collapseGo true l) = collapseGo true l ∧
    collapseGo false (collapseGo false l) = collapseGo false l := by
  induction l with
  | nil => exact ⟨rfl, rfl⟩
  | cons c t ih =>
    cases hc : jsSpace c with
    | true =>
      refine ⟨by simpa [collapseGo, hc] using ih.1, ?_⟩
      have hsp : jsSpace ' ' = true := by decide
      simp [collapseGo, hc, hsp, ih.1]
    | false =>
      constructor <;> simp [collapseGo, hc] <;> exact ih.2

theorem head?_dropWhile_false (p : Char → Bool) (l : List Char) :
    ∀ c ∈ (l.dropWhile p).head?, p c = false := by
  induction l with
  | nil => simp
  | cons c t ih =>
    cases hc : p c with
    | true => simpa [List.dropWhile_cons, hc] using ih
    | false => simp [List.dropWhile_cons, hc]

theorem dropWhile_eq_self_of_head (p : Char → Bool) (l : List Char)
    (h : ∀ c ∈ l.head?, p c = false) : l.dropWhile p = l := by
  cases l with
  | nil => rfl
  | cons c t =>
    have hc : p c = false := h c (by simp)
    simp [List.dropWhile_cons, hc]

theorem getLast?_cons_of_ne_nil {α : Type} {c : α} {t : List α} (h : t ≠ []) :
    (c :: t).getLast? = t.getLast? := by
  cases t with
  | nil => exact absurd rfl h
  | cons d t' => exact List.getLast?_cons_cons

theorem getLast?_dropWhile (p : Char → Bool) (l : List Char)
    (h : l.dropWhile p ≠ []) : (l.dropWhile p).getLast? = l.getLast? := by
  induction l with
  | nil => exact absurd rfl h
  | cons c t ih =>
    cases hc : p c with
    | true =>
      rw [List.dropWhile_cons, if_pos hc] at h ⊢
      have ht : t ≠ [] := by
        intro he
        subst he
        exact h rfl
      rw [ih h, getLast?_cons_of_ne_nil ht]
    | false =>
      rw [List.dropWhile_cons, if_neg (by simp [hc])]

theorem trimL_props {l : List Char} {c0 : Char} (hc0 : c0 ∈ l) (hns : jsSpace c0 = false) :
    trimL l ≠ [] ∧ (∀ c ∈ (trimL l).head?, jsSpace c = false) ∧
      (∀ c ∈ (trimL l).getLast?, jsSpace c = false) := by
  have hk : l.dropWhile jsSpace ≠ [] := by
    intro he
    exact absurd (List.dropWhile_eq_nil_iff.mp he c0 hc0) (by simp [hns])
  obtain ⟨kh, kt, hkk⟩ : ∃ kh kt, l.dropWhile jsSpace = kh :: kt := by
    cases hkc : l.dropWhile jsSpace with
    | nil => exact absurd hkc hk
    | cons a b => exact ⟨a, b, rfl⟩
  have hkh : jsSpace kh = false :=
    head?_dropWhile_false jsSpace l kh (by simp [hkk])
  have hkmem : kh ∈ (l.dropWhile jsSpace).reverse := by simp [hkk]
  have hm : (l.dropWhile jsSpace).reverse.dropWhile jsSpace ≠ [] := by
    intro he
    exact absurd (List.dropWhile_eq_nil_iff.mp he kh hkmem) (by simp [hkh])
  have htr : trimL l = ((l.dropWhile jsSpace).reverse.dropWhile jsSpace).reverse := rfl
  refine ⟨by simp [htr, hm], ?_, ?_⟩
  · intro c hcm
    rw [htr, List.head?_reverse, getLast?_dropWhile _ _ hm, List.getLast?_reverse, hkk] at hcm
    simp only [List.head?_cons, Option.mem_def, Option.some.injEq] at hcm
    rw [← hcm]
    exact hkh
  · intro c hcm
    rw [htr, List.getLast?_reverse] at hcm
    exact head?_dropWhile_false jsSpace _ c hcm

theorem trimL_eq_self {l : List Char} (hh : ∀ c ∈ l.head?, jsSpace c = false)
    (hl : ∀ c ∈ l.getLast?, jsSpace c = false) : trimL l = l := by
  unfold trimL
  rw [dropWhile_eq_self_of_head _ _ hh]
  rw [dropWhile_eq_self_of_head _ _ (by rw [List.head?_reverse]; exact hl)]
  exact List.reverse_reverse l


theorem collapseGo_cons_false {c : Char} (b : Bool) (t : List Char) (h : jsSpace c = false) :
    collapseGo b (c :: t) = c :: collapseGo false t := by
  simp [collapseGo, h]

theorem collapseGo_cons_true_true {c : Char} (t : List Char) (h : jsSpace c = true) :
    collapseGo true (c :: t) = collapseGo true t := by
  simp [collapseGo, h]

theorem collapseGo_cons_true_false {c : Char} (t : List Char) (h : jsSpace c = true) :
    collapseGo false (c :: t) = ' ' :: collapseGo true t := by
  simp [collapseGo, h]

theorem collapseGo_getLast? (l : List Char) :
    ∀ b, l ≠ [] → (∀ c ∈ l.getLast?, jsSpace c = false) →
      (collapseGo b l).getLast? = l.getLast? := by
  induction l with
  | nil => exact fun b h _ => absurd rfl h
  | cons c t ih =>
    intro b _ hl
    cases t with
    | nil =>
      have hc : jsSpace c = false := hl c (by simp)
      rw [collapseGo_cons_false b [] hc]
      rfl
    | cons d t' =>
      have hl' : ∀ x ∈ (d :: t').getLast?, jsSpace x = false := by
        intro x hx
        exact hl x (by rw [List.getLast?_cons_cons]; exact hx)
      cases hc : jsSpace c with
      | false =>
        have hm : collapseGo false (d :: t') ≠ [] :=
          collapseGo_ne_nil false (by simp) rfl
        rw [collapseGo_cons_false b (d :: t') hc, getLast?_cons_of_ne_nil hm,
          List.getLast?_cons_cons]
        exact ih false (by simp) hl'
      | true =>
        have hrec : (collapseGo true (d :: t')).getLast? = (d :: t').getLast? :=
          ih true (by simp) hl'
        cases b with
        | true =>
          rw [collapseGo_cons_true_true _ hc, List.getLast?_cons_cons]
          exact hrec
        | false =>
          have hm' : collapseGo true (d :: t') ≠ [] := by
            intro he
            rw [he, List.getLast?_cons] at hrec
            simp at hrec
          rw [collapseGo_cons_true_false _ hc, getLast?_cons_of_ne_nil hm',
            List.getLast?_cons_cons]
          exact hrec

theorem collapseWs_head? (l : List Char) (hh : ∀ c ∈ l.head?, jsSpace c = false) :
    ∀ c ∈ (collapseWs l).head?, jsSpace c = false := by
  cases l with
  | nil => simp [collapseWs, collapseGo]
  | cons c t =>
    have hc : jsSpace c = false := hh c (by simp)
    rw [collapseWs, collapseGo_cons_false false t hc]
    intro x hx
    simp only [List.head?_cons, Option.mem_def, Option.some.injEq] at hx
    rw [← hx]
    exact hc

theorem upperL_head? (l : List Char) (hh : ∀ c ∈ l.head?, jsSpace c = false) :
    ∀ c ∈ (upperL l).head?, jsSpace c = false := by
  cases l with
  | nil => simp [upperL]
  | cons c t =>
    have hc : jsSpace c = false := hh c (by simp)
    intro x hx
    simp only [upperL, List.map_cons, List.head?_cons, Option.mem_def, Option.some.injEq] at hx
    rw [← hx, jsSpace_toUpper]
    exact hc

theorem upperL_getLast? (l : List Char) (hl : ∀ c ∈ l.getLast?, jsSpace c = false) :
    ∀ c ∈ (upperL l).getLast?, jsSpace c = false := by
  intro x hx
  rw [upperL, List.getLast?_map] at hx
  cases hg : l.getLast? with
  | none => rw [hg] at hx; simp at hx
  | some y =>
    rw [hg] at hx
    simp at hx
    rw [← hx, jsSpace_toUpper]
    exact hl y (by rw [hg]; rfl)

theorem upperL_idem (l : List Char) : upperL (upperL l) = upperL l := by
  simp only [upperL, List.map_map]
  exact List.map_congr_left fun a _ => toUpper_toUpper a

theorem upperL_cons (c : Char) (t : List Char) :
    upperL (c :: t) = Char.toUpper c :: upperL t :=
  rfl

theorem collapseGo_upperL (l : List Char) :
    ∀ b, collapseGo b (upperL l) = upperL (collapseGo b l) := by
  induction l with
  | nil => intro b; rfl
  | cons c t ih =>
    intro b
    cases hc : jsSpace c with
    | true =>
      have hcu : jsSpace (Char.toUpper c) = true := by rw [jsSpace_toUpper]; exact hc
      cases b with
      | true =>
        rw [upperL_cons, collapseGo_cons_true_true _ hcu, collapseGo_cons_true_true _ hc]
        exact ih true
      | false =>
        rw [upperL_cons, collapseGo_cons_true_false _ hcu, collapseGo_cons_true_false _ hc,
          upperL_cons, show Char.toUpper ' ' = ' ' from by decide]
        exact congrArg _ (ih true)
    | false =>
      have hcu : jsSpace (Char.toUpper c) = false := by rw [jsSpace_toUpper]; exact hc
      rw [upperL_cons, collapseGo_cons_false b _ hcu, collapseGo_cons_false b _ hc, upperL_cons]
      exact congrArg _ (ih false)

theorem courseTransform_props (s : String) {c0 : Char} (hc0 : c0 ∈ s.data)
    (hns : jsSpace c0 = false) :
    courseTransform (courseTransform s) = courseTransform s ∧ courseTransform s ≠ "" := by
  obtain ⟨htne, hth, htl⟩ := trimL_props hc0 hns
  have hune : upperL (trimL s.data) ≠ [] := by
    intro he
    exact htne (by simpa [upperL] using he)
  have huh := upperL_head? (trimL s.data) hth
  have hul := upperL_getLast? (trimL s.data) htl
  have hyne : collapseWs (upperL (trimL s.data)) ≠ [] := collapseGo_ne_nil false hune rfl
  have hyh := collapseWs_head? (upperL (trimL s.data)) huh
  have hyl : ∀ c ∈ (collapseWs (upperL (trimL s.data))).getLast?, jsSpace c = false := by
    rw [collapseWs, collapseGo_getLast? _ false hune hul]
    exact hul
  have hdata : (courseTransform s).data = collapseWs (upperL (trimL s.data)) := rfl
  have hu : upperL (collapseWs (upperL (trimL s.data))) = collapseWs (upperL (trimL s.data)) := by
    rw [collapseWs, ← collapseGo_upperL (upperL (trimL s.data)) false, upperL_idem]
  have hcoll : collapseWs (collapseWs (upperL (trimL s.data))) =
      collapseWs (upperL (trimL s.data)) :=
    (collapseGo_idem (upperL (trimL s.data))).2
  constructor
  · show String.mk (collapseWs (upperL (trimL (courseTransform s).data))) = courseTransform s
    rw [hdata, trimL_eq_self hyh hyl, hu, hcoll]
    rfl
  · intro he
    apply hyne
    rw [← hdata, he]

/-- C4 (amended): course canonicalization is idempotent on the empty string and
on every input containing at least one non-whitespace character, and any two
non-empty inputs that become literally equal after trim+upper-case+whitespace-
collapse canonicalize to the same key. (As literally stated the claim fails on
non-empty whitespace-only inputs, whose canonical form is `""` while
`canon("") = "UNKNOWN"` — see the counterexample theorem.) -/
theorem normalizeCourse_idem_amended :
    (∀ s : String, (s = "" ∨ ∃ c ∈ s.data, jsSpace c = false) →
      normalizeCourse (normalizeCourse s) = normalizeCourse s) ∧
    (∀ s t : String, s ≠ "" → t ≠ "" → courseTransform s = courseTransform t →
      normalizeCourse s = normalizeCourse t) := by
  constructor
  · rintro s (rfl | ⟨c0, hc0, hns⟩)
    · decide
    · have hs : s ≠ "" := by
        intro he
        subst he
        simp at hc0
      obtain ⟨hfix, hne⟩ := courseTransform_props s hc0 hns
      have h1 : normalizeCourse s = courseTransform s := by
        rw [normalizeCourse, if_neg hs]
      rw [h1, normalizeCourse, if_neg hne]
      exact hfix
  · intro s t hs ht he
    rw [normalizeCourse, if_neg hs, normalizeCourse, if_neg ht]
    exact he

/-- Counterexample for C4 as literally stated: on the non-empty whitespace-only
input `" "` canonicalization is not idempotent (`canon(" ") = ""` but
`canon(canon(" ")) = "UNKNOWN"`), and `" "` and `""` agree after
trim+upper+collapse yet canonicalize to different keys. -/
theorem normalizeCourse_idem_counterexample :
    normalizeCourse " " = "" ∧
    normalizeCourse (normalizeCourse " ") = "UNKNOWN" ∧
    normalizeCourse (normalizeCourse " ") ≠ normalizeCourse " " ∧
    courseTransform " " = courseTransform "" ∧
    normalizeCourse " " ≠ normalizeCourse "" := by
  decide

/-- Witness for C4's amended theorem at concrete inputs: idempotence at
`"b  c a"` (which contains the non-whitespace character `'b'`), and equal keys
for the non-empty pair `" BCA "` / `"bca"`, whose trim+upper+collapse forms
literally agree. -/
theorem normalizeCourse_idem_amended_witness :
    (∃ c ∈ ("b  c a" : String).data, jsSpace c = false) ∧
    normalizeCourse (normalizeCourse "b  c a") = normalizeCourse "b  c a" ∧
    (" BCA " : String) ≠ "" ∧ ("bca" : String) ≠ "" ∧
    courseTransform " BCA " = courseTransform "bca" ∧
    normalizeCourse " BCA " = normalizeCourse "bca" := by
  refine ⟨⟨'b', by decide, by decide⟩, ?_, by decide, by decide, by decide, ?_⟩
  · exact normalizeCourse_idem_amended.1 "b  c a" (Or.inr ⟨'b', by decide, by decide⟩)
  · exact normalizeCourse_idem_amended.2 " BCA " "bca" (by decide) (by decide) (by decide)

/-- C10: for non-empty input the sentinel branch is never taken (the result is
always the trim+upper+collapse transform, because the emptiness check precedes
trimming); in particular a non-empty whitespace-only course string
canonicalizes to `""`, not to `"UNKNOWN"`, and exactly the empty string takes
the `"UNKNOWN"` sentinel branch. -/
theorem normalizeCourse_whitespace_only (s : String) :
    (s ≠ "" → normalizeCourse s = courseTransform s) ∧
    (s ≠ "" → (∀ c ∈ s.data, jsSpace c = true) → normalizeCourse s = "") ∧
    normalizeCourse "" = "UNKNOWN" := by
  refine ⟨fun hs => by rw [normalizeCourse, if_neg hs], fun hs hws => ?_, rfl⟩
  rw [normalizeCourse, if_neg hs]
  have h1 : s.data.dropWhile jsSpace = [] := List.dropWhile_eq_nil_iff.mpr hws
  have h2 : trimL s.data = [] := by rw [trimL, h1]; rfl
  rw [courseTransform, h2]
  rfl

/-- Witness for C10 at the concrete whitespace-only input `"   "`. -/
theorem normalizeCourse_whitespace_only_witness :
    ("   " : String) ≠ "" ∧ (∀ c ∈ ("   " : String).data, jsSpace c = true) ∧
    normalizeCourse "   " = "" ∧ normalizeCourse "   " ≠ "UNKNOWN" := by
  refine ⟨by decide, by decide, ?_, ?_⟩
  · exact (normalizeCourse_whitespace_only "   ").2.1 (by decide) (by decide)
  · rw [(normalizeCourse_whitespace_only "   ").2.1 (by decide) (by decide)]
    decide

theorem leadMatch_iff (m : List Char) : ∀ t, leadMatch t m = true ↔ ∃ suf, t = m ++ suf := by
  induction m with
  | nil => intro t; simp [leadMatch]
  | cons n ns ih =>
    intro t
    cases t with
    | nil =>
      simp only [leadMatch, List.cons_append]
      constructor
      · intro h; exact absurd h (by simp)
      · rintro ⟨suf, h⟩; exact absurd h (by simp)
    | cons h hs =>
      simp only [leadMatch, Bool.and_eq_true, beq_iff_eq, ih hs]
      constructor
      · rintro ⟨rfl, suf, rfl⟩
        exact ⟨suf, rfl⟩
      · rintro ⟨suf, heq⟩
        rw [List.cons_append] at heq
        obtain ⟨h1, h2⟩ := List.cons.injEq .. ▸ heq
        exact ⟨h1, suf, h2⟩

theorem hasSub_iff (hay needle : List Char) :
    hasSub hay needle = true ↔ ∃ pre suf, hay = pre ++ needle ++ suf := by
  induction hay with
  | nil =>
    simp only [hasSub, List.isEmpty_iff]
    constructor
    · rintro rfl; exact ⟨[], [], rfl⟩
    · rintro ⟨pre, suf, h⟩
      rcases List.append_eq_nil.mp (List.append_eq_nil.mp h.symm).1 with ⟨-, h2⟩
      exact h2
  | cons c t ih =>
    simp only [hasSub, Bool.or_eq_true, leadMatch_iff needle (c :: t), ih]
    constructor
    · rintro (⟨suf, h⟩ | ⟨pre, suf, h⟩)
      · exact ⟨[], suf, by simpa using h⟩
      · exact ⟨c :: pre, suf, by simp [h]⟩
    · rintro ⟨pre, suf, h⟩
      cases pre with
      | nil => exact Or.inl ⟨suf, by simpa using h⟩
      | cons p ps =>
        right
        rw [List.cons_append, List.cons_append] at h
        obtain ⟨-, h2⟩ := List.cons.injEq .. ▸ h
        exact ⟨ps, suf, h2⟩

/-- C2 (amended): the editable roster and the print view use the identical
search predicate — a case-insensitive substring match against `fullName` or
`contactNo` (OR between exactly those two fields) — but the admin console's
search additionally matches `course`, `shift` and `batch`, so the predicate is
not applied identically by all three surfaces. -/
theorem searchPredicate_amended :
    (∀ (q : String) (a : Attendee), rosterSearchMatch q a = printSearchMatch q a) ∧
    (∀ (q : String) (a : Attendee),
      rosterSearchMatch q a = true ↔
        (∃ pre suf, lowerL a.fullName.data = pre ++ lowerL q.data ++ suf) ∨
        (∃ pre suf, lowerL (a.contactNo.getD "").data = pre ++ lowerL q.data ++ suf)) ∧
    (∀ (q : String) (a : Attendee),
      adminSearchMatch q a = true ↔
        ((∃ pre suf, lowerL a.fullName.data = pre ++ lowerL q.data ++ suf) ∨
         (∃ pre suf, lowerL a.course.data = pre ++ lowerL q.data ++ suf) ∨
         (∃ s, a.shift = some s ∧ ∃ pre suf, lowerL s.data = pre ++ lowerL q.data ++ suf) ∨
         (∃ pre suf, lowerL a.batch.data = pre ++ lowerL q.data ++ suf) ∨
         (∃ s, a.contactNo = some s ∧
           ∃ pre suf, lowerL s.data = pre ++ lowerL q.data ++ suf))) := by
  refine ⟨fun q a => rfl, fun q a => ?_, fun q a => ?_⟩
  · simp only [rosterSearchMatch, Bool.or_eq_true, hasSub_iff]
  · obtain ⟨i, fn, co, ba, sh, cn, ip, ca⟩ := a
    cases sh with
    | none =>
      cases cn with
      | none =>
        simp only [adminSearchMatch, Bool.or_eq_true, hasSub_iff]
        constructor
        · rintro ((((h | h) | h) | h) | h)
          · exact Or.inl h
          · exact Or.inr (Or.inl h)
          · exact absurd h (by simp)
          · exact Or.inr (Or.inr (Or.inr (Or.inl h)))
          · exact absurd h (by simp)
        · rintro (h | h | ⟨x, hx, h⟩ | h | ⟨x, hx, h⟩)
          · exact Or.inl (Or.inl (Or.inl (Or.inl h)))
          · exact Or.inl (Or.inl (Or.inl (Or.inr h)))
          · exact absurd hx (by simp)
          · exact Or.inl (Or.inr h)
          · exact absurd hx (by simp)
      | some s2 =>
        simp only [adminSearchMatch, Bool.or_eq_true, hasSub_iff, Option.some.injEq]
        constructor
        · rintro ((((h | h) | h) | h) | h)
          · exact Or.inl h
          · exact Or.inr (Or.inl h)
          · exact absurd h (by simp)
          · exact Or.inr (Or.inr (Or.inr (Or.inl h)))
          · exact Or.inr (Or.inr (Or.inr (Or.inr ⟨s2, rfl, h⟩)))
        · rintro (h | h | ⟨x, hx, h⟩ | h | ⟨x, hx, h⟩)
          · exact Or.inl (Or.inl (Or.inl (Or.inl h)))
          · exact Or.inl (Or.inl (Or.inl (Or.inr h)))
          · exact absurd hx (by simp)
          · exact Or.inl (Or.inr h)
          · exact Or.inr (hx ▸ h)
    | some s =>
      cases cn with
      | none =>
        simp only [adminSearchMatch, Bool.or_eq_true, hasSub_iff, Option.some.injEq]
        constructor
        · rintro ((((h | h) | h) | h) | h)
          · exact Or.inl h
          · exact Or.inr (Or.inl h)
          · exact Or.inr (Or.inr (Or.inl ⟨s, rfl, h⟩))
          · exact Or.inr (Or.inr (Or.inr (Or.inl h)))
          · exact absurd h (by simp)
        · rintro (h | h | ⟨x, hx, h⟩ | h | ⟨x, hx, h⟩)
          · exact Or.inl (Or.inl (Or.inl (Or.inl h)))
          · exact Or.inl (Or.inl (Or.inl (Or.inr h)))
          · exact Or.inl (Or.inl (Or.inr (hx ▸ h)))
          · exact Or.inl (Or.inr h)
          · exact absurd hx (by simp)
      | some s2 =>
        simp only [adminSearchMatch, Bool.or_eq_true, hasSub_iff, Option.some.injEq]
        constructor
        · rintro ((((h | h) | h) | h) | h)
          · exact Or.inl h
          · exact Or.inr (Or.inl h)
          · exact Or.inr (Or.inr (Or.inl ⟨s, rfl, h⟩))
          · exact Or.inr (Or.inr (Or.inr (Or.inl h)))
          · exact Or.inr (Or.inr (Or.inr (Or.inr ⟨s2, rfl, h⟩)))
        · rintro (h | h | ⟨x, hx, h⟩ | h | ⟨x, hx, h⟩)
          · exact Or.inl (Or.inl (Or.inl (Or.inl h)))
          · exact Or.inl (Or.inl (Or.inl (Or.inr h)))
          · exact Or.inl (Or.inl (Or.inr (hx ▸ h)))
          · exact Or.inl (Or.inr h)
          · exact Or.inr (hx ▸ h)

/-- Counterexample for C2 as literally stated: for the record
(fullName "John Doe", course "CS", batch "2024", no shift, no contact) and
search string "cs", the admin console's predicate matches (via the course
field) although "cs" is not a substring of the record's fullName or contactNo
— the roster/print predicate rejects it — so the three surfaces do not apply
the claimed two-field predicate identically. -/
theorem searchPredicate_counterexample :
    adminSearchMatch "cs"
      { id := 0, fullName := "John Doe", course := "CS", batch := "2024" } = true ∧
    rosterSearchMatch "cs"
      { id := 0, fullName := "John Doe", course := "CS", batch := "2024" } = false ∧
    printSearchMatch "cs"
      { id := 0, fullName := "John Doe", course := "CS", batch := "2024" } = false := by
  decide

theorem patchPresence_inv (id : Nat) (p : Bool) (now : Nat) (s : List Attendee)
    (h : storeInv s) : storeInv (patchPresence id p now s) := by
  intro a ha
  obtain ⟨b, hb, rfl⟩ := List.mem_map.mp ha
  by_cases hid : b.id = id
  · rw [if_pos hid]
    cases p <;> rfl
  · rw [if_neg hid]
    exact h b hb

theorem foldl_patchPresence_inv (p : Bool) (now : Nat) :
    ∀ (ids : List Nat) (s : List Attendee), storeInv s →
      storeInv (ids.foldl (fun acc i => patchPresence i p now acc) s) := by
  intro ids
  induction ids with
  | nil => exact fun s h => h
  | cons i rest ih =>
    intro s h
    exact ih (patchPresence i p now s) (patchPresence_inv i p now s h)

theorem importedRecords_inv (rows : List ImportRow) (now : Nat) :
    ∀ firstId, ∀ r ∈ importedRecords rows now firstId, r.checkedInAt.isSome = r.isPresent := by
  induction rows with
  | nil => intro firstId r hr; simp [importedRecords] at hr
  | cons row rest ih =>
    intro firstId r hr
    rw [importedRecords] at hr
    rcases List.mem_cons.mp hr with hr | hr
    · subst hr
      cases hg : row.isPresent.getD false <;> simp [hg]
    · exact ih (firstId + 1) r hr

/-- C3: every store mutation preserves the pairing "`checkedInAt` is set iff
`isPresent` is true" for every record; marking a record absent or resetting all
presence leaves the affected records absent with `checkedInAt` cleared; a
single add creates the record absent with no `checkedInAt`; and a bulk-import
row without a specified presence produces an absent record with no
`checkedInAt`. -/
theorem storeMutations_inv :
    (∀ (m : StoreMutation) (s : List Attendee), storeInv s → storeInv (applyMutation m s)) ∧
    (∀ (id now : Nat) (s : List Attendee),
      ∀ a ∈ applyMutation (.markAttendance id false now) s,
        a.id = id → a.isPresent = false ∧ a.checkedInAt = none) ∧
    (∀ s : List Attendee, ∀ a ∈ applyMutation .resetAttendance s,
      a.isPresent = false ∧ a.checkedInAt = none) ∧
    (∀ (fn co ba : String) (sh cn : Option String) (newId : Nat) (s : List Attendee),
      applyMutation (.addAttendee fn co ba sh cn newId) s =
        s ++ [{ id := newId, fullName := fn, course := co, batch := ba, shift := sh,
                contactNo := cn, isPresent := false, checkedInAt := none }]) ∧
    (∀ (row : ImportRow) (rest : List ImportRow) (now firstId : Nat), row.isPresent = none →
      ∃ rec rest', importedRecords (row :: rest) now firstId = rec :: rest' ∧
        rec.isPresent = false ∧ rec.checkedInAt = none) := by
  refine ⟨fun m s h => ?_, fun id now s a ha haid => ?_, fun s a ha => ?_,
    fun fn co ba sh cn newId s => rfl, fun row rest now firstId hrow => ?_⟩
  · cases m with
    | markAttendance id p now => exact patchPresence_inv id p now s h
    | markBulkAttendance ids p now => exact foldl_patchPresence_inv p now ids s h
    | addAttendee fn co ba sh cn newId =>
      intro a ha
      rcases List.mem_append.mp ha with ha | ha
      · exact h a ha
      · rcases List.mem_singleton.mp ha with rfl
        rfl
    | bulkImport rows now firstId =>
      intro a ha
      rcases List.mem_append.mp ha with ha | ha
      · exact h a ha
      · exact importedRecords_inv rows now firstId a ha
    | deleteAttendee id =>
      intro a ha
      exact h a (List.mem_of_mem_filter ha)
    | clearAll =>
      intro a ha
      simp [applyMutation] at ha
    | resetAttendance =>
      intro a ha
      obtain ⟨b, hb, rfl⟩ := List.mem_map.mp ha
      rfl
  · obtain ⟨b, hb, rfl⟩ := List.mem_map.mp ha
    by_cases hid : b.id = id
    · rw [if_pos hid]
      exact ⟨rfl, rfl⟩
    · rw [if_neg hid] at haid ⊢
      exact absurd haid hid
  · obtain ⟨b, hb, rfl⟩ := List.mem_map.mp ha
    exact ⟨rfl, rfl⟩
  · refine ⟨_, _, rfl, ?_, ?_⟩ <;> rw [hrow] <;> rfl

/-- Witness for C3 at a concrete store: a single present record with a
check-in time satisfies the invariant, and marking it absent preserves the
invariant (its `checkedInAt` is cleared together with the flag). -/
theorem storeMutations_inv_witness :
    storeInv [{ id := 1, fullName := "A", course := "B", batch := "C",
                isPresent := true, checkedInAt := some 7 }] ∧
    storeInv (applyMutation (.markAttendance 1 false 9)
      [{ id := 1, fullName := "A", course := "B", batch := "C",
         isPresent := true, checkedInAt := some 7 }]) ∧
    applyMutation (.markAttendance 1 false 9)
      [{ id := 1, fullName := "A", course := "B", batch := "C",
         isPresent := true, checkedInAt := some 7 }] =
      [{ id := 1, fullName := "A", course := "B", batch := "C",
         isPresent := false, checkedInAt := none }] :=
  ⟨by unfold storeInv; decide, storeMutations_inv.1 _ _ (by unfold storeInv; decide), by decide⟩

theorem normalizeBatchYear_range {b : String} {y : Nat}
    (h : normalizeBatchYear b = some y) : 1980 ≤ y ∧ y ≤ 2030 := by
  rw [normalizeBatchYear] at h
  by_cases hb : b = ""
  · rw [if_pos hb] at h
    exact absurd h (by simp)
  · rw [if_neg hb] at h
    cases hrun : firstDigitRun b.data with
    | none =>
      rw [hrun] at h
      exact absurd h (by simp)
    | some run =>
      rw [hrun] at h
      dsimp only at h
      split_ifs at h <;> simp_all

theorem orderedInsertBy_perm (key : Attendee → Nat) (x : Attendee) (t : List Attendee) :
    List.Perm (orderedInsertBy key x t) (x :: t) := by
  induction t with
  | nil => exact List.Perm.refl _
  | cons y t' ih =>
    rw [orderedInsertBy]
    by_cases hxy : key x ≤ key y
    · rw [if_pos hxy]
    · rw [if_neg hxy]
      exact List.Perm.trans (ih.cons y) (List.Perm.swap x y t')

theorem orderedInsertBy_mem {key : Attendee → Nat} {x b : Attendee} {t : List Attendee}
    (h : b ∈ orderedInsertBy key x t) : b = x ∨ b ∈ t := by
  have := (orderedInsertBy_perm key x t).mem_iff.mp h
  simpa using this

theorem orderedInsertBy_pairwise (key : Attendee → Nat) (x : Attendee) (t : List Attendee)
    (h : t.Pairwise (fun a b => key a ≤ key b)) :
    (orderedInsertBy key x t).Pairwise (fun a b => key a ≤ key b) := by
  induction t with
  | nil => exact List.pairwise_singleton _ _
  | cons y t' ih =>
    obtain ⟨hy, ht'⟩ := List.pairwise_cons.mp h
    rw [orderedInsertBy]
    by_cases hxy : key x ≤ key y
    · rw [if_pos hxy]
      refine List.pairwise_cons.mpr ⟨?_, h⟩
      intro b hb
      rcases List.mem_cons.mp hb with rfl | hb
      · exact hxy
      · exact le_trans hxy (hy b hb)
    · rw [if_neg hxy]
      refine List.pairwise_cons.mpr ⟨?_, ih ht'⟩
      intro b hb
      rcases orderedInsertBy_mem hb with rfl | hb
      · omega
      · exact hy b hb

/-- C8: sorting by the batch column compares normalized batch years (the sort
output is a permutation of the input, pairwise ordered by the normalized-year
key), unparseable batches take the key 9999 which is strictly greater than the
key of every parseable batch (so they sort last in ascending order), and on
the three records with batches "2016", "16", "Batch 1999" the ascending batch
sort puts "Batch 1999" first while "2016" and "16" tie (keeping their original
relative order). -/
theorem sortedDataForExport_batch_spec :
    (∀ l : List Attendee, List.Perm (sortByBatchAsc l) l ∧
      (sortByBatchAsc l).Pairwise (fun a b => batchSortKey a ≤ batchSortKey b)) ∧
    (∀ a b : Attendee, normalizeBatchYear a.batch = none →
      ∀ y, normalizeBatchYear b.batch = some y → batchSortKey b < batchSortKey a) ∧
    (∀ a b : Attendee, normalizeBatchYear a.batch = normalizeBatchYear b.batch →
      batchSortKey a = batchSortKey b) ∧
    sortByBatchAsc
        [{ id := 1, fullName := "r1", course := "c", batch := "2016" },
         { id := 2, fullName := "r2", course := "c", batch := "16" },
         { id := 3, fullName := "r3", course := "c", batch := "Batch 1999" }] =
      [{ id := 3, fullName := "r3", course := "c", batch := "Batch 1999" },
       { id := 1, fullName := "r1", course := "c", batch := "2016" },
       { id := 2, fullName := "r2", course := "c", batch := "16" }] := by
  refine ⟨fun l => ?_, fun a b ha y hb => ?_, fun a b h => ?_, by decide⟩
  · induction l with
    | nil => exact ⟨List.Perm.refl _, List.Pairwise.nil⟩
    | cons a t ih =>
      constructor
      · exact List.Perm.trans (orderedInsertBy_perm batchSortKey a (sortByBatchAsc t))
          (ih.1.cons a)
      · exact orderedInsertBy_pairwise batchSortKey a (sortByBatchAsc t) ih.2
  · have hr := normalizeBatchYear_range hb
    rw [batchSortKey, batchSortKey, ha, hb]
    simp only [Option.getD_some, Option.getD_none]
    omega
  · rw [batchSortKey, batchSortKey, h]

/-- Witness for C8 at concrete records: "xyz" is unparseable, "Batch 1999"
normalizes to 1999, and the unparseable record's sort key is strictly larger. -/
theorem sortedDataForExport_batch_spec_witness :
    normalizeBatchYear "xyz" = none ∧ normalizeBatchYear "Batch 1999" = some 1999 ∧
    batchSortKey { id := 5, fullName := "n", course := "c", batch := "Batch 1999" } <
      batchSortKey { id := 4, fullName := "m", course := "c", batch := "xyz" } :=
  ⟨by decide, by decide,
    sortedDataForExport_batch_spec.2.1
      { id := 4, fullName := "m", course := "c", batch := "xyz" }
      { id := 5, fullName := "n", course := "c", batch := "Batch 1999" }
      (by decide) 1999 (by decide)⟩

theorem round_percent_toNat (p t : Nat) (ht : 0 < t) :
    (round ((p : ℚ) / (t : ℚ) * 100)).toNat = (200 * p + t) / (2 * t) := by
  have ht' : (t : ℚ) ≠ 0 := Nat.cast_ne_zero.mpr ht.ne'
  have h1 : (p : ℚ) / t * 100 + 1/2 = (((200 * p + t : ℕ) : ℤ) : ℚ) / ((2 * t : ℕ) : ℚ) := by
    push_cast
    field_simp
    ring
  rw [round_eq, h1, Rat.floor_intCast_div_natCast, ← Int.natCast_div, Int.toNat_natCast]

/-- C9: `getStats` returns the collection size as `total`, the number of
present records as `present`, `absent = total − present`, and `percentage` is
the rounding of `present/total*100` when the collection is non-empty (with the
executable closed form `(200·present + total) / (2·total)` in natural-number
division) and `0` on the empty collection, which yields exactly
`{0, 0, 0, 0}` with no division by zero. -/
theorem getStats_spec :
    (∀ l : List Attendee,
      (getStats l).total = l.length ∧
      (getStats l).present = (l.filter fun a => a.isPresent).length ∧
      (getStats l).absent = (getStats l).total - (getStats l).present ∧
      (0 < l.length →
        ((getStats l).percentage : ℤ) =
          round (((l.filter fun a => a.isPresent).length : ℚ) / (l.length : ℚ) * 100)) ∧
      (0 < l.length →
        (getStats l).percentage =
          (200 * (l.filter fun a => a.isPresent).length + l.length) / (2 * l.length))) ∧
    getStats [] = ⟨0, 0, 0, 0⟩ := by
  refine ⟨fun l => ⟨rfl, rfl, rfl, fun hl => ?_, fun hl => ?_⟩, rfl⟩
  · show ((if 0 < l.length then
        (round (((l.filter fun a => a.isPresent).length : ℚ) / (l.length : ℚ) * 100)).toNat
      else 0 : ℕ) : ℤ) = _
    rw [if_pos hl]
    refine Int.toNat_of_nonneg ?_
    rw [round_eq]
    refine Int.floor_nonneg.mpr ?_
    positivity
  · show (if 0 < l.length then
        (round (((l.filter fun a => a.isPresent).length : ℚ) / (l.length : ℚ) * 100)).toNat
      else 0) = _
    rw [if_pos hl]
    exact round_percent_toNat _ _ hl

/-- Witness for C9 at a concrete collection of three records with exactly one
present (percentage 33) and at the empty collection. -/
theorem getStats_spec_witness :
    0 < ([{ id := 1, fullName := "a", course := "c", batch := "b", isPresent := true },
          { id := 2, fullName := "d", course := "c", batch := "b" },
          { id := 3, fullName := "e", course := "c", batch := "b" }] : List Attendee).length ∧
    (getStats [{ id := 1, fullName := "a", course := "c", batch := "b", isPresent := true },
               { id := 2, fullName := "d", course := "c", batch := "b" },
               { id := 3, fullName := "e", course := "c", batch := "b" }]).percentage = 33 ∧
    getStats [] = ⟨0, 0, 0, 0⟩ := by
  refine ⟨by decide, ?_, getStats_spec.2⟩
  have h := (getStats_spec.1
    [{ id := 1, fullName := "a", course := "c", batch := "b", isPresent := true },
     { id := 2, fullName := "d", course := "c", batch := "b" },
     { id := 3, fullName := "e", course := "c", batch := "b" }]).2.2.2.2 (by decide)
  rw [h]
  decide

/-- C5: when the CSV text has at least a header line and one data line but the
fuzzy header matching fails to resolve any of the three required roles (name;
course/program; batch/year), `parseCSV` fails as a whole with the descriptive
error and produces no records, regardless of the data rows present. -/
theorem parseCSV_missing_header (text : String)
    (hlen : 2 ≤ (jsSplit '\n' (jsTrim text)).length)
    (hmiss : nameIdxOf (csvHeaders text) = none ∨ courseIdxOf (csvHeaders text) = none ∨
      batchIdxOf (csvHeaders text) = none) :
    parseCSV text = .error "CSV must have 'name', 'course', and 'batch' columns" := by
  rw [parseCSV, if_neg (by omega)]
  split
  · rename_i nIdx cIdx bIdx heq
    rcases hmiss with h | h | h <;> simp_all
  · rfl

/-- Witness for C5 at the concrete text "id,roll\nx,y": two lines are present,
no header contains "name", and parsing yields the descriptive error. -/
theorem parseCSV_missing_header_witness :
    2 ≤ (jsSplit '\n' (jsTrim "id,roll\nx,y")).length ∧
    nameIdxOf (csvHeaders "id,roll\nx,y") = none ∧
    parseCSV "id,roll\nx,y" = .error "CSV must have 'name', 'course', and 'batch' columns" :=
  ⟨by decide, by decide, parseCSV_missing_header _ (by decide) (Or.inl (by decide))⟩

/-- C6: a data row whose (trimmed) name cell is empty or missing is silently
skipped, a data row with a non-empty name cell is kept — with course and batch
kept as the possibly-empty strings of their cells — and the CSV text
`name,course,batch\nJohn Doe,CS,2024\n,EC,2025` parses to exactly one record,
while a present-but-empty course cell is kept as the empty string. -/
theorem parseCSV_row_policy :
    (∀ (nIdx cIdx bIdx : Nat) (shiftIdx contactIdx : Option Nat) (line : String)
        (rest : List String),
      ((jsSplit ',' line).map jsTrim).getD nIdx "" = "" →
        parseRows nIdx cIdx bIdx shiftIdx contactIdx (line :: rest) =
          parseRows nIdx cIdx bIdx shiftIdx contactIdx rest) ∧
    (∀ (nIdx cIdx bIdx : Nat) (shiftIdx contactIdx : Option Nat) (line : String)
        (rest : List String),
      ((jsSplit ',' line).map jsTrim).getD nIdx "" ≠ "" →
        parseRows nIdx cIdx bIdx shiftIdx contactIdx (line :: rest) =
          { fullName := ((jsSplit ',' line).map jsTrim).getD nIdx "",
            course := ((jsSplit ',' line).map jsTrim).getD cIdx "",
            batch := ((jsSplit ',' line).map jsTrim).getD bIdx "",
            shift := shiftIdx.bind fun i => ((jsSplit ',' line).map jsTrim).get? i,
            contactNo := contactIdx.bind fun i => ((jsSplit ',' line).map jsTrim).get? i,
            isPresent := none } :: parseRows nIdx cIdx bIdx shiftIdx contactIdx rest) ∧
    parseCSV "name,course,batch\nJohn Doe,CS,2024\n,EC,2025" =
      .ok [{ fullName := "John Doe", course := "CS", batch := "2024",
             shift := none, contactNo := none, isPresent := none }] ∧
    parseCSV "name,course,batch\nJohn,,2024" =
      .ok [{ fullName := "John", course := "", batch := "2024",
             shift := none, contactNo := none, isPresent := none }] := by
  refine ⟨fun nIdx cIdx bIdx shiftIdx contactIdx line rest h => ?_,
    fun nIdx cIdx bIdx shiftIdx contactIdx line rest h => ?_, by rfl, by rfl⟩
  · simp at h
    simp [parseRows, h]
  · simp at h
    simp [parseRows, h]

/-- Witness for C6 at concrete rows: the blank-name row ",EC,2025" is skipped
and the row "John Doe,CS,2024" is kept with its three cells. -/
theorem parseCSV_row_policy_witness :
    ((jsSplit ',' ",EC,2025").map jsTrim).getD 0 "" = "" ∧
    parseRows 0 1 2 none none [",EC,2025"] = [] ∧
    ((jsSplit ',' "John Doe,CS,2024").map jsTrim).getD 0 "" ≠ "" ∧
    parseRows 0 1 2 none none ["John Doe,CS,2024"] =
      [{ fullName := "John Doe", course := "CS", batch := "2024",
         shift := none, contactNo := none, isPresent := none }] := by
  refine ⟨by decide, ?_, by decide, ?_⟩
  · rw [parseCSV_row_policy.1 0 1 2 none none ",EC,2025" [] (by decide)]
    rfl
  · rw [parseCSV_row_policy.2.1 0 1 2 none none "John Doe,CS,2024" [] (by decide)]
    decide

theorem splitOnChar_no_sep {sep : Char} :
    ∀ {l : List Char}, (∀ c ∈ l, ¬ c = sep) → splitOnChar sep l = [l] := by
  intro l
  induction l with
  | nil => intro _; rfl
  | cons c t ih =>
    intro h
    have hc : ¬ c = sep := h c (List.mem_cons_self c t)
    have ht := ih fun x hx => h x (List.mem_cons_of_mem c hx)
    rw [splitOnChar]
    simp only [ht]
    rw [if_neg (by simpa using hc)]

theorem splitOnChar_append_sep {sep : Char} (x rest : List Char)
    (hx : ∀ c ∈ x, ¬ c = sep) :
    splitOnChar sep (x ++ sep :: rest) = x :: splitOnChar sep rest := by
  induction x with
  | nil =>
    rw [List.nil_append, splitOnChar]
    simp
  | cons c t ih =>
    have hc : ¬ c = sep := hx c (List.mem_cons_self c t)
    have ht := ih fun y hy => hx y (List.mem_cons_of_mem c hy)
    rw [List.cons_append, splitOnChar]
    simp only [ht]
    rw [if_neg (by simpa using hc)]

theorem splitOnChar_joinSep {sep : Char} :
    ∀ (parts : List (List Char)), parts ≠ [] → (∀ p ∈ parts, ∀ c ∈ p, ¬ c = sep) →
      splitOnChar sep (joinSep sep parts) = parts := by
  intro parts
  induction parts with
  | nil => exact fun h _ => absurd rfl h
  | cons p ps ih =>
    intro _ hall
    cases ps with
    | nil => exact splitOnChar_no_sep (hall p (List.mem_cons_self p []))
    | cons q rest =>
      have hp := hall p (List.mem_cons_self p _)
      have hrec := ih (by simp) fun r hr c hc => hall r (List.mem_cons_of_mem p hr) c hc
      show splitOnChar sep (p ++ sep :: joinSep sep (q :: rest)) = p :: q :: rest
      rw [splitOnChar_append_sep p _ hp, hrec]

theorem joinSep_head? (sep : Char) (p : List Char) (ps : List (List Char)) (hp : p ≠ []) :
    (joinSep sep (p :: ps)).head? = p.head? := by
  cases ps with
  | nil => rfl
  | cons q rest =>
    show (p ++ sep :: joinSep sep (q :: rest)).head? = p.head?
    cases p with
    | nil => exact absurd rfl hp
    | cons c t => rfl

theorem joinSep_getLast? (sep : Char) :
    ∀ (parts : List (List Char)) (plast : List Char), parts.getLast? = some plast →
      plast ≠ [] → (joinSep sep parts).getLast? = plast.getLast? := by
  intro parts
  induction parts with
  | nil => simp
  | cons p ps ih =>
    intro plast hl hne
    cases ps with
    | nil =>
      have : p = plast := by simpa using hl
      subst this
      rfl
    | cons q rest =>
      rw [List.getLast?_cons_cons] at hl
      have hm := ih plast hl hne
      have hmem : joinSep sep (q :: rest) ≠ [] := by
        intro he
        rw [he] at hm
        cases hg : plast.getLast? with
        | none => exact hne (by simpa using hg)
        | some x => rw [hg] at hm; simp at hm
      show (p ++ sep :: joinSep sep (q :: rest)).getLast? = plast.getLast?
      rw [List.getLast?_append_cons, getLast?_cons_of_ne_nil hmem, hm]

theorem joinSep_getLast?_sep (sep : Char) :
    ∀ (parts : List (List Char)), 2 ≤ parts.length → parts.getLast? = some [] →
      (joinSep sep parts).getLast? = some sep := by
  intro parts
  induction parts with
  | nil => simp
  | cons p ps ih =>
    intro hlen hl
    cases ps with
    | nil => simp at hlen
    | cons q rest =>
      rw [List.getLast?_cons_cons] at hl
      show (p ++ sep :: joinSep sep (q :: rest)).getLast? = some sep
      rw [List.getLast?_append_cons]
      cases rest with
      | nil =>
        have : q = [] := by simpa using hl
        subst this
        rfl
      | cons r rest' =>
        have hrec := ih (by simp) hl
        have hmem : joinSep sep (q :: r :: rest') ≠ [] := by
          intro he
          rw [he] at hrec
          simp at hrec
        rw [getLast?_cons_of_ne_nil hmem, hrec]

theorem mem_joinSep {sep c : Char} :
    ∀ {parts : List (List Char)}, c ∈ joinSep sep parts → c = sep ∨ ∃ p ∈ parts, c ∈ p := by
  intro parts
  induction parts with
  | nil => intro h; simp [joinSep] at h
  | cons p ps ih =>
    intro h
    cases ps with
    | nil =>
      exact Or.inr ⟨p, List.mem_cons_self p [], h⟩
    | cons q rest =>
      rcases List.mem_append.mp h with h | h
      · exact Or.inr ⟨p, List.mem_cons_self p _, h⟩
      · rcases List.mem_cons.mp h with rfl | h
        · exact Or.inl rfl
        · rcases ih h with h | ⟨r, hr, hc⟩
          · exact Or.inl h
          · exact Or.inr ⟨r, List.mem_cons_of_mem p hr, hc⟩

theorem joinSep_cons₂ (sep : Char) (x y : List Char) (t : List (List Char)) :
    joinSep sep (x :: y :: t) = x ++ sep :: joinSep sep (y :: t) :=
  rfl

theorem joinSep_singleton (sep : Char) (x : List Char) : joinSep sep [x] = x :=
  rfl

theorem joinSep_ne_nil_of_two {sep : Char} (p q : List Char) (t : List (List Char)) :
    joinSep sep (p :: q :: t) ≠ [] := by
  rw [joinSep_cons₂]
  cases p <;> simp

theorem cleanCell_parts {s : String} (h : cleanCell s = true) :
    (∀ c ∈ s.data, ¬ c = ',' ∧ ¬ c = '\n') ∧
    (∀ c ∈ s.data.head?, jsSpace c = false) ∧
    (∀ c ∈ s.data.getLast?, jsSpace c = false) := by
  rw [cleanCell, Bool.and_eq_true, Bool.and_eq_true] at h
  obtain ⟨⟨hall, hh⟩, hl⟩ := h
  refine ⟨fun c hc => ?_, fun c hc => ?_, fun c hc => ?_⟩
  · have := List.all_eq_true.mp hall c hc
    simpa using this
  · cases hg : s.data.head? with
    | none => rw [hg] at hc; simp at hc
    | some d =>
      rw [hg] at hh hc
      simp only [Option.mem_def, Option.some.injEq] at hc
      subst hc
      simpa using hh
  · cases hg : s.data.getLast? with
    | none => rw [hg] at hc; simp at hc
    | some d =>
      rw [hg] at hl hc
      simp only [Option.mem_def, Option.some.injEq] at hc
      subst hc
      simpa using hl

theorem cleanCell_trim {s : String} (h : cleanCell s = true) : jsTrim s = s := by
  obtain ⟨-, hh, hl⟩ := cleanCell_parts h
  show String.mk (trimL s.data) = s
  rw [trimL_eq_self hh hl]

theorem timeCell_parts {s : String} (h : timeCell s = true) :
    (∀ c ∈ s.data, ¬ c = '\n') ∧
    (∀ c ∈ s.data.head?, jsSpace c = false) ∧
    (∀ c ∈ s.data.getLast?, jsSpace c = false) := by
  rw [timeCell, Bool.and_eq_true, Bool.and_eq_true] at h
  obtain ⟨⟨hall, hh⟩, hl⟩ := h
  refine ⟨fun c hc => ?_, fun c hc => ?_, fun c hc => ?_⟩
  · have := List.all_eq_true.mp hall c hc
    simpa using this
  · cases hg : s.data.head? with
    | none => rw [hg] at hc; simp at hc
    | some d =>
      rw [hg] at hh hc
      simp only [Option.mem_def, Option.some.injEq] at hc
      subst hc
      simpa using hh
  · cases hg : s.data.getLast? with
    | none => rw [hg] at hc; simp at hc
    | some d =>
      rw [hg] at hl hc
      simp only [Option.mem_def, Option.some.injEq] at hc
      subst hc
      simpa using hl

theorem exportRowCells_mem (fmtTime : Nat → String) (a : Attendee) (ha : cleanAttendee a) :
    ∀ p ∈ exportRowCells fmtTime a,
      cleanCell p = true ∨ p = "Yes" ∨ p = "No" ∨ p = "" ∨ ∃ t, p = fmtTime t := by
  obtain ⟨hfn, -, hco, hba, ⟨s, hs, hcs⟩, ⟨cn, hcn, hccn⟩⟩ := ha
  intro p hp
  rw [exportRowCells, hs, hcn] at hp
  simp only [Option.getD_some, List.mem_cons, List.not_mem_nil, or_false] at hp
  rcases hp with rfl | rfl | rfl | rfl | rfl | rfl | rfl
  · exact Or.inl hfn
  · exact Or.inl hco
  · exact Or.inl hcs
  · exact Or.inl hba
  · exact Or.inl hccn
  · cases a.isPresent
    · right; right; left; simp
    · right; left; simp
  · cases a.checkedInAt with
    | none => right; right; right; left; rfl
    | some t => right; right; right; right; exact ⟨t, rfl⟩

theorem exportRow_no_nl (fmtTime : Nat → String) (hfmt : ∀ t, timeCell (fmtTime t) = true)
    (a : Attendee) (ha : cleanAttendee a) :
    ∀ c ∈ joinSep ',' ((exportRowCells fmtTime a).map String.data), ¬ c = '\n' := by
  intro c hc
  rcases mem_joinSep hc with rfl | ⟨pd, hp, hcp⟩
  · decide
  · obtain ⟨q, hq, rfl⟩ := List.mem_map.mp hp
    rcases exportRowCells_mem fmtTime a ha q hq with h | rfl | rfl | rfl | ⟨t, rfl⟩
    · exact ((cleanCell_parts h).1 c hcp).2
    · rw [show ("Yes" : String).data = ['Y', 'e', 's'] from rfl] at hcp
      simp only [List.mem_cons, List.not_mem_nil, or_false] at hcp
      rcases hcp with rfl | rfl | rfl <;> decide
    · rw [show ("No" : String).data = ['N', 'o'] from rfl] at hcp
      simp only [List.mem_cons, List.not_mem_nil, or_false] at hcp
      rcases hcp with rfl | rfl <;> decide
    · rw [show ("" : String).data = [] from rfl] at hcp
      simp at hcp
    · exact (timeCell_parts (hfmt t)).1 c hcp

theorem exportRow_getLast (fmtTime : Nat → String) (hfmt : ∀ t, timeCell (fmtTime t) = true)
    (a : Attendee) :
    ∀ c ∈ (joinSep ',' ((exportRowCells fmtTime a).map String.data)).getLast?,
      jsSpace c = false := by
  intro c hc
  cases hca : a.checkedInAt with
  | none =>
    have h7 : ((exportRowCells fmtTime a).map String.data).getLast? = some [] := by
      rw [exportRowCells, hca]
      rfl
    rw [joinSep_getLast?_sep ',' _ (by rw [exportRowCells]; simp) h7] at hc
    simp only [Option.mem_def, Option.some.injEq] at hc
    subst hc
    decide
  | some t =>
    have h7 : ((exportRowCells fmtTime a).map String.data).getLast? =
        some (fmtTime t).data := by
      rw [exportRowCells, hca]
      rfl
    cases hnil : (fmtTime t).data with
    | nil =>
      rw [joinSep_getLast?_sep ',' _ (by rw [exportRowCells]; simp) (by rw [h7, hnil])] at hc
      simp only [Option.mem_def, Option.some.injEq] at hc
      subst hc
      decide
    | cons d ds =>
      rw [joinSep_getLast? ',' _ _ h7 (by rw [hnil]; simp)] at hc
      exact (timeCell_parts (hfmt t)).2.2 c hc

theorem parseRows_cons_skip (nIdx cIdx bIdx : Nat) (shiftIdx contactIdx : Option Nat)
    (line : String) (rest : List String)
    (h : ((jsSplit ',' line).map jsTrim).getD nIdx "" = "") :
    parseRows nIdx cIdx bIdx shiftIdx contactIdx (line :: rest) =
      parseRows nIdx cIdx bIdx shiftIdx contactIdx rest := by
  simp at h
  simp [parseRows, h]

theorem parseRows_cons_keep (nIdx cIdx bIdx : Nat) (shiftIdx contactIdx : Option Nat)
    (line : String) (rest : List String)
    (h : ((jsSplit ',' line).map jsTrim).getD nIdx "" ≠ "") :
    parseRows nIdx cIdx bIdx shiftIdx contactIdx (line :: rest) =
      { fullName := ((jsSplit ',' line).map jsTrim).getD nIdx "",
        course := ((jsSplit ',' line).map jsTrim).getD cIdx "",
        batch := ((jsSplit ',' line).map jsTrim).getD bIdx "",
        shift := shiftIdx.bind fun i => ((jsSplit ',' line).map jsTrim).get? i,
        contactNo := contactIdx.bind fun i => ((jsSplit ',' line).map jsTrim).get? i,
        isPresent := none } :: parseRows nIdx cIdx bIdx shiftIdx contactIdx rest := by
  simp at h
  simp [parseRows, h]

theorem parseRows_export (fmtTime : Nat → String) :
    ∀ (attendees : List Attendee), (∀ a ∈ attendees, cleanAttendee a) →
      parseRows 0 1 3 (some 2) (some 4)
        (attendees.map fun a =>
          String.mk (joinSep ',' ((exportRowCells fmtTime a).map String.data))) =
      attendees.map fun a =>
        { fullName := a.fullName, course := a.course, batch := a.batch,
          shift := a.shift, contactNo := a.contactNo, isPresent := none } := by
  intro attendees
  induction attendees with
  | nil => intro _; rfl
  | cons a rest ih =>
    intro hall
    obtain ⟨hfn, hfnne, hco, hba, ⟨s, hs, hcn0⟩, ⟨cn, hcn, hccn⟩⟩ :=
      hall a (List.mem_cons_self a rest)
    have hcells : (exportRowCells fmtTime a).map String.data =
        [a.fullName.data, a.course.data, s.data, a.batch.data, cn.data,
         ((if a.isPresent then "Yes" else "No" : String)).data,
         ((match a.checkedInAt with | some t => fmtTime t | none => "" : String)).data] := by
      rw [exportRowCells, hs, hcn]
      rfl
    have hc1 : ∀ c ∈ a.fullName.data, ¬ c = ',' := fun c hc => ((cleanCell_parts hfn).1 c hc).1
    have hc2 : ∀ c ∈ a.course.data, ¬ c = ',' := fun c hc => ((cleanCell_parts hco).1 c hc).1
    have hc3 : ∀ c ∈ s.data, ¬ c = ',' := fun c hc => ((cleanCell_parts hcn0).1 c hc).1
    have hc4 : ∀ c ∈ a.batch.data, ¬ c = ',' := fun c hc => ((cleanCell_parts hba).1 c hc).1
    have hc5 : ∀ c ∈ cn.data, ¬ c = ',' := fun c hc => ((cleanCell_parts hccn).1 c hc).1
    have hc6 : ∀ c ∈ ((if a.isPresent then "Yes" else "No" : String)).data, ¬ c = ',' := by
      cases a.isPresent
      · decide
      · decide
    have hsplit : splitOnChar ',' (joinSep ',' ((exportRowCells fmtTime a).map String.data)) =
        a.fullName.data :: a.course.data :: s.data :: a.batch.data :: cn.data ::
          ((if a.isPresent then "Yes" else "No" : String)).data ::
          splitOnChar ','
            ((match a.checkedInAt with | some t => fmtTime t | none => "" : String)).data := by
      rw [hcells, joinSep_cons₂, splitOnChar_append_sep _ _ hc1,
        joinSep_cons₂, splitOnChar_append_sep _ _ hc2,
        joinSep_cons₂, splitOnChar_append_sep _ _ hc3,
        joinSep_cons₂, splitOnChar_append_sep _ _ hc4,
        joinSep_cons₂, splitOnChar_append_sep _ _ hc5,
        joinSep_cons₂, splitOnChar_append_sep _ _ hc6, joinSep_singleton]
    have hline : jsSplit ','
        (String.mk (joinSep ',' ((exportRowCells fmtTime a).map String.data))) =
        a.fullName :: a.course :: s :: a.batch :: cn ::
          (if a.isPresent then "Yes" else "No" : String) ::
          (splitOnChar ','
            ((match a.checkedInAt with | some t => fmtTime t | none => "" : String)).data).map
            String.mk := by
      show (splitOnChar ','
        (joinSep ',' ((exportRowCells fmtTime a).map String.data))).map String.mk = _
      rw [hsplit]
      rfl
    have hcols : (jsSplit ','
        (String.mk (joinSep ',' ((exportRowCells fmtTime a).map String.data)))).map jsTrim =
        a.fullName :: a.course :: s :: a.batch :: cn ::
          jsTrim (if a.isPresent then "Yes" else "No" : String) ::
          ((splitOnChar ','
            ((match a.checkedInAt with | some t => fmtTime t | none => "" : String)).data).map
            String.mk).map jsTrim := by
      rw [hline]
      simp only [List.map_cons]
      rw [cleanCell_trim hfn, cleanCell_trim hco, cleanCell_trim hcn0, cleanCell_trim hba,
        cleanCell_trim hccn]
    rw [List.map_cons, List.map_cons]
    rw [parseRows_cons_keep 0 1 3 (some 2) (some 4) _ _ (by rw [hcols]; simpa using hfnne)]
    congr 1
    · rw [hcols]
      simp [List.getD, hs, hcn]
    · exact ih fun x hx => hall x (List.mem_cons_of_mem a hx)

/-- C7 (amended): exporting a non-empty attendee collection and re-importing
the emitted text through the fuzzy header matcher reconstructs exactly the
(fullName, course, batch, shift, contactNo) tuples — provided every record's
text fields are free of commas, newlines and edge whitespace, names are
non-empty, the optional shift and contact fields are present, and the
timestamp rendering is newline-free. (As literally stated the claim fails for
records with an absent shift or contactNo, which re-import as present-but-
empty strings — see the counterexample theorem.) -/
theorem exportCSV_roundtrip (fmtTime : Nat → String) (attendees : List Attendee)
    (hne : attendees ≠ [])
    (hclean : ∀ a ∈ attendees, cleanAttendee a)
    (hfmt : ∀ t, timeCell (fmtTime t) = true) :
    parseCSV (exportCSVText fmtTime attendees) =
      .ok (attendees.map fun a =>
        { fullName := a.fullName, course := a.course, batch := a.batch,
          shift := a.shift, contactNo := a.contactNo, isPresent := none }) := by
  have hTdata : (exportCSVText fmtTime attendees).data =
      joinSep '\n' (joinSep ',' (exportHeaderCells.map String.data) ::
        attendees.map fun a => joinSep ',' ((exportRowCells fmtTime a).map String.data)) := rfl
  obtain ⟨alast, hga⟩ :=
    Option.isSome_iff_exists.mp (List.getLast?_isSome.mpr hne)
  have hmaplast : (attendees.map fun a =>
      joinSep ',' ((exportRowCells fmtTime a).map String.data)).getLast? =
      some (joinSep ',' ((exportRowCells fmtTime alast).map String.data)) := by
    rw [List.getLast?_map, hga]
    rfl
  have hpartslast : (joinSep ',' (exportHeaderCells.map String.data) ::
      attendees.map fun a => joinSep ',' ((exportRowCells fmtTime a).map String.data)).getLast? =
      some (joinSep ',' ((exportRowCells fmtTime alast).map String.data)) := by
    rw [getLast?_cons_of_ne_nil (by simp [hne]), hmaplast]
  have hrowne : joinSep ',' ((exportRowCells fmtTime alast).map String.data) ≠ [] :=
    joinSep_ne_nil_of_two alast.fullName.data alast.course.data _
  have htrim : jsTrim (exportCSVText fmtTime attendees) = exportCSVText fmtTime attendees := by
    show String.mk (trimL (exportCSVText fmtTime attendees).data) = _
    rw [hTdata, trimL_eq_self ?hh ?hl, ← hTdata]
    case hh =>
      rw [joinSep_head? '\n' _ _ (by decide)]
      decide
    case hl =>
      rw [joinSep_getLast? '\n' _ _ hpartslast hrowne]
      exact exportRow_getLast fmtTime hfmt alast
  have hnosep : ∀ p ∈ (joinSep ',' (exportHeaderCells.map String.data) ::
      attendees.map fun a => joinSep ',' ((exportRowCells fmtTime a).map String.data)),
      ∀ c ∈ p, ¬ c = '\n' := by
    intro p hp
    rcases List.mem_cons.mp hp with rfl | hp
    · decide
    · obtain ⟨a, ha, rfl⟩ := List.mem_map.mp hp
      exact exportRow_no_nl fmtTime hfmt a (hclean a ha)
  have hlines : jsSplit '\n' (jsTrim (exportCSVText fmtTime attendees)) =
      (joinSep ',' (exportHeaderCells.map String.data) ::
        attendees.map fun a =>
          joinSep ',' ((exportRowCells fmtTime a).map String.data)).map String.mk := by
    rw [htrim]
    show (splitOnChar '\n' (exportCSVText fmtTime attendees).data).map String.mk = _
    rw [hTdata, splitOnChar_joinSep _ (by simp) hnosep]
  have hlen2 : ¬ (jsSplit '\n' (jsTrim (exportCSVText fmtTime attendees))).length < 2 := by
    rw [hlines]
    have := List.length_pos.mpr hne
    simp only [List.map_cons, List.length_cons, List.length_map]
    omega
  have hhead : csvHeaders (exportCSVText fmtTime attendees) =
      ["full name", "course", "shift", "batch", "contact no.", "present", "checked in at"] := by
    rw [csvHeaders, hlines]
    simp only [List.map_cons, List.headD_cons]
    decide
  have hnI : nameIdxOf (csvHeaders (exportCSVText fmtTime attendees)) = some 0 := by
    rw [hhead]; decide
  have hcI : courseIdxOf (csvHeaders (exportCSVText fmtTime attendees)) = some 1 := by
    rw [hhead]; decide
  have hbI : batchIdxOf (csvHeaders (exportCSVText fmtTime attendees)) = some 3 := by
    rw [hhead]; decide
  have hsI : shiftIdxOf (csvHeaders (exportCSVText fmtTime attendees)) = some 2 := by
    rw [hhead]; decide
  have hctI : contactIdxOf (csvHeaders (exportCSVText fmtTime attendees)) = some 4 := by
    rw [hhead]; decide
  rw [parseCSV, if_neg hlen2, hnI, hcI, hbI, hsI, hctI, hlines]
  simp only [List.map_cons, List.tail_cons, List.map_map]
  exact congrArg Except.ok (parseRows_export fmtTime attendees hclean)

/-- Counterexample for C7 as literally stated: a record with no `contactNo`
and no `shift` exports those columns as empty cells, and re-importing yields
`some ""` for both — the (fullName, course, batch, shift, contactNo) tuple is
not reconstructed (`some "" ≠ none`), even though every stored field is clean
and the collection is non-empty. -/
theorem exportCSV_roundtrip_counterexample :
    parseCSV (exportCSVText (fun _ => "t")
      [{ id := 0, fullName := "John", course := "CS", batch := "2024" }]) =
      .ok [{ fullName := "John", course := "CS", batch := "2024",
             shift := some "", contactNo := some "", isPresent := none }] ∧
    ({ id := 0, fullName := "John", course := "CS", batch := "2024" } : Attendee).contactNo =
      none ∧
    (some "" : Option String) ≠
      ({ id := 0, fullName := "John", course := "CS", batch := "2024" } : Attendee).contactNo :=
  ⟨by rfl, rfl, by decide⟩

/-- Witness for C7's amended theorem at a concrete one-record collection with
clean fields, present shift/contact, and a comma-containing locale timestamp. -/
theorem exportCSV_roundtrip_witness :
    (∀ a ∈ ([{ id := 1, fullName := "John", course := "CS", batch := "2024",
               shift := some "Morning", contactNo := some "12345",
               isPresent := true, checkedInAt := some 5 }] : List Attendee), cleanAttendee a) ∧
    (∀ t : Nat, timeCell ((fun _ => "1/1/2020, 5:00:00 AM") t) = true) ∧
    parseCSV (exportCSVText (fun _ => "1/1/2020, 5:00:00 AM")
      [{ id := 1, fullName := "John", course := "CS", batch := "2024",
         shift := some "Morning", contactNo := some "12345",
         isPresent := true, checkedInAt := some 5 }]) =
      .ok [{ fullName := "John", course := "CS", batch := "2024",
             shift := some "Morning", contactNo := some "12345", isPresent := none }] := by
  refine ⟨?hc, fun _ => (by decide : timeCell "1/1/2020, 5:00:00 AM" = true),
    exportCSV_roundtrip _ _ (by decide) ?hc
      (fun _ => (by decide : timeCell "1/1/2020, 5:00:00 AM" = true))⟩
  case hc =>
    intro a ha
    rcases List.mem_singleton.mp ha with rfl
    exact ⟨by decide, by decide, by decide, by decide, ⟨"Morning", rfl, by decide⟩,
      ⟨"12345", rfl, by decide⟩⟩
